import Mathlib

/-!
Shallow embedding of `dynamic_bitset` (src/dynamic_bitset.hh): a dynamically
sized bitset backed by a vector of bytes (`uint8_t`).  Bytes are modelled as
`Nat` values (always kept below 256 by the operations), the byte vector as a
`List Nat`, and the logical bit count (`size_t _num_bits`) as a `Nat`.
Out-of-bounds element access on the byte vector — undefined behaviour in the
C++ source — is modelled as failure, so the fallible operations `get`, `set`,
`count` and `to_string` return `Option` values that are `none` exactly when
the source would index outside `_data`.
-/

/-- State of a `dynamic_bitset` object: field `_num_bits` is the `size_t`
member, field `_data` is the `std::vector<uint8_t>` member. -/
structure dynamic_bitset where
  _num_bits : Nat
  _data : List Nat
  deriving DecidableEq, Repr

/-- The word-count formula shared by the constructor (lines 61-66) and
`resize` (lines 85-90): `1` if `nbits < 8`, else `1 + (nbits - 8) / 8`
(C++ `size_t` division truncates, as Nat division does; the subtraction
`nbits - 8` is guarded by `nbits < 8`, so Nat truncated subtraction agrees).
The spec names this quantity `number_of_bytes_needed`. -/
def number_of_bytes_needed (nbits : Nat) : Nat :=
  if nbits < 8 then 1 else 1 + (nbits - 8) / 8

/-- The default constructor `dynamic_bitset()` (line 45): `_num_bits{0}` and
an empty `std::vector`. -/
def default_construct : dynamic_bitset := ⟨0, []⟩

/-- The constructor `dynamic_bitset(size_t nbits)` (lines 58-72): sets
`_num_bits = nbits`, resizes `_data` to the computed word count and fills it
with zeros. -/
def construct (nbits : Nat) : dynamic_bitset :=
  ⟨nbits, List.replicate (number_of_bytes_needed nbits) 0⟩

/-- `std::vector::resize(n)` semantics on a list: truncate to `n` elements
when shrinking, append value-initialized (zero) elements when growing. -/
def vector_resize (l : List Nat) (n : Nat) : List Nat :=
  if n ≤ l.length then l.take n else l ++ List.replicate (n - l.length) 0

/-- `dynamic_bitset::resize(size_t nbits)` (lines 81-93): sets
`_num_bits = nbits` and resizes `_data` to the recomputed word count,
without re-zeroing surviving bytes. -/
def dynamic_bitset.resize (s : dynamic_bitset) (nbits : Nat) : dynamic_bitset :=
  ⟨nbits, vector_resize s._data (number_of_bytes_needed nbits)⟩

/-- `dynamic_bitset::reset()` (lines 109-111): `std::fill_n` writes zero over
every existing byte of `_data`; the length and `_num_bits` are untouched. -/
def dynamic_bitset.reset (s : dynamic_bitset) : dynamic_bitset :=
  ⟨s._num_bits, s._data.map (fun _ => 0)⟩

/-- `dynamic_bitset::operator[](size_t pos)` (lines 138-143):
`(_data[pos / 8] >> (pos % 8)) & 0x1`, converted to `bool` (nonzero test).
The vector access is checked: `none` models the out-of-bounds read that the
C++ code would perform when `pos / 8 >= _data.size()`. -/
def dynamic_bitset.get (s : dynamic_bitset) (pos : Nat) : Option Bool :=
  match s._data[pos / 8]? with
  | none => none
  | some b => some (decide ((b >>> (pos % 8)) &&& 1 ≠ 0))

/-- `dynamic_bitset::set(size_t pos, bool value)` (lines 113-126):
`bitfield = uint8_t(1 << (pos % 8))`; bit on via `|= bitfield`, bit off via
`&= ~bitfield` (on a `uint8_t` byte `b < 256` the int-promoted complement
followed by the byte store equals `b &&& (255 ^^^ bitfield)`).  The vector
access is checked as in `get`. -/
def dynamic_bitset.set (s : dynamic_bitset) (pos : Nat) (value : Bool) : Option dynamic_bitset :=
  match s._data[pos / 8]? with
  | none => none
  | some b =>
    some ⟨s._num_bits,
      s._data.set (pos / 8)
        (if value then b ||| ((1 <<< (pos % 8)) % 256)
         else b &&& (255 ^^^ ((1 <<< (pos % 8)) % 256)))⟩

/-- `dynamic_bitset::count()` (lines 98-107): a `uint32_t` accumulator `c`
starts at 0 and the loop adds `(*this)[i] ? 1 : 0` for `i` in
`[0, _num_bits)`; each `uint32_t` addition wraps modulo `2^32`.  A loop
iteration whose element read is out of bounds makes the result `none`. -/
def dynamic_bitset.count (s : dynamic_bitset) : Option Nat :=
  (List.range s._num_bits).foldlM
    (fun c i => (s.get i).map (fun b => (c + if b then 1 else 0) % 4294967296))
    0

/-- `dynamic_bitset::to_string()` (lines 128-136): for `i` in
`[0, _num_bits)` append `'1'` or `'0'` according to
`(*this)[_num_bits - i - 1]`. -/
def dynamic_bitset.to_string (s : dynamic_bitset) : Option String :=
  ((List.range s._num_bits).mapM
    (fun i => (s.get (s._num_bits - i - 1)).map (fun b => if b then '1' else '0'))).map
    (fun l => String.mk l)

/-! ### Helper lemmas -/

/-- The raw bit read of `operator[]` is `Nat.testBit`. -/
lemma bitread_eq_testBit (b off : Nat) :
    decide ((b >>> off) &&& 1 ≠ 0) = b.testBit off := by
  simp [Nat.testBit, Nat.land_comm]

/-- `get` in terms of `Nat.testBit`. -/
lemma get_eq_map_testBit (s : dynamic_bitset) (pos : Nat) :
    s.get pos = (s._data[pos / 8]?).map (fun b => b.testBit (pos % 8)) := by
  unfold dynamic_bitset.get
  cases s._data[pos / 8]? <;> simp [bitread_eq_testBit]

/-- The byte cast `uint8_t(1 << offset)` is just `2 ^ offset` for `offset < 8`. -/
lemma bitfield_eq (off : Nat) (h : off < 8) : (1 <<< off) % 256 = 2 ^ off := by
  rw [Nat.shiftLeft_eq, one_mul, Nat.mod_eq_of_lt]
  calc 2 ^ off < 2 ^ 8 := Nat.pow_lt_pow_right one_lt_two h
    _ = 256 := by norm_num

lemma testBit_or_self (b off : Nat) : (b ||| 2 ^ off).testBit off = true := by
  simp [Nat.testBit_lor, Nat.testBit_two_pow_self]

lemma testBit_or_other (b off off' : Nat) (h : off' ≠ off) :
    (b ||| 2 ^ off).testBit off' = b.testBit off' := by
  simp [Nat.testBit_lor, Nat.testBit_two_pow_of_ne (Ne.symm h)]

/-- Every one of the low 8 bits of the mask base `255` is set. -/
lemma testBit_255 (off : Nat) (h : off < 8) : Nat.testBit 255 off = true := by
  revert off
  decide

lemma testBit_clear_self (b off : Nat) (h : off < 8) :
    (b &&& (255 ^^^ 2 ^ off)).testBit off = false := by
  rw [Nat.testBit_land, Nat.testBit_xor, testBit_255 off h, Nat.testBit_two_pow_self]
  simp

lemma testBit_clear_other (b off off' : Nat) (h8 : off' < 8) (h : off' ≠ off) :
    (b &&& (255 ^^^ 2 ^ off)).testBit off' = b.testBit off' := by
  rw [Nat.testBit_land, Nat.testBit_xor, testBit_255 off' h8,
    Nat.testBit_two_pow_of_ne (Ne.symm h)]
  simp

/-- `set` at an in-range position succeeds and rewrites one byte. -/
lemma set_eq_some (s : dynamic_bitset) (pos : Nat) (v : Bool)
    (h : pos / 8 < s._data.length) :
    s.set pos v = some ⟨s._num_bits,
      s._data.set (pos / 8)
        (if v then s._data[pos / 8] ||| 2 ^ (pos % 8)
         else s._data[pos / 8] &&& (255 ^^^ 2 ^ (pos % 8)))⟩ := by
  unfold dynamic_bitset.set
  rw [List.getElem?_eq_getElem h, bitfield_eq (pos % 8) (Nat.mod_lt pos (by norm_num))]

/-- `get` at an in-range position succeeds with the tested bit. -/
lemma get_eq_some (s : dynamic_bitset) (pos : Nat) (h : pos / 8 < s._data.length) :
    s.get pos = some (s._data[pos / 8].testBit (pos % 8)) := by
  rw [get_eq_map_testBit, List.getElem?_eq_getElem h]
  rfl

/-! ### Claim theorems -/

/-- Claim C1 (corrected): the constructor's actual allocation sizes under the
source formula `1 + (nbits - 8) / 8` (for `nbits >= 8`): `construct 7`,
`construct 8` and `construct 9` all allocate 1 byte, `construct 16` and
`construct 17` both allocate 2 bytes. -/
theorem construct_word_count :
    (construct 7)._data.length = 1 ∧ (construct 8)._data.length = 1 ∧
    (construct 9)._data.length = 1 ∧ (construct 16)._data.length = 2 ∧
    (construct 17)._data.length = 2 := by
  decide

/-- Claim C1, counterexample: contrary to the spec's sizing example,
`construct 9` does not allocate 2 bytes (it allocates 1). -/
theorem construct_word_count_cex : (construct 9)._data.length ≠ 2 := by
  decide

/-- Claim C9: `get` and `set` fail (out-of-bounds access, modelled as `none`)
exactly when the byte index `pos / 8` is not a valid index into `_data`;
the model is pure, so a failing `set` yields no successor state and a
failing `get` has no side effect. -/
theorem get_set_oob_iff (s : dynamic_bitset) (pos : Nat) (v : Bool) :
    (s.get pos = none ↔ s._data.length ≤ pos / 8) ∧
    (s.set pos v = none ↔ s._data.length ≤ pos / 8) := by
  unfold dynamic_bitset.get dynamic_bitset.set
  rcases h : s._data[pos / 8]? with _ | b
  · rw [List.getElem?_eq_none_iff] at h
    simp [h]
  · have h' : pos / 8 < s._data.length := by
      by_contra hc
      rw [List.getElem?_eq_none_iff.mpr (Nat.le_of_not_lt hc)] at h
      exact Option.noConfusion h
    simp [Nat.not_le.mpr h', h']

/-- Claim C10: `construct 0` allocates one zero byte (not zero-length
storage), so with `_num_bits = 0` every position in `[0, 8)` can be read
(initially `false`) and written without error. -/
theorem construct_zero_byte :
    (construct 0)._num_bits = 0 ∧ (construct 0)._data.length = 1 ∧
    (∀ pos, pos < 8 →
      ((construct 0).get pos = some false ∧
       ∀ v, ((construct 0).set pos v).isSome = true)) := by
  decide

/-- Claim C10, witness at `pos = 3`. -/
theorem construct_zero_byte_witness :
    (3 : Nat) < 8 ∧ ((construct 0).get 3 = some false ∧
      ∀ v, ((construct 0).set 3 v).isSome = true) :=
  ⟨by decide, construct_zero_byte.2.2 3 (by decide)⟩

/-- Claim C5 (corrected): `construct n` zero-fills, so `get i` returns
`false` for every `i < n` whose byte index `i / 8` is inside the allocated
storage; positions beyond the (sometimes undersized) allocation fail
instead of returning `false`. -/
theorem construct_zero_fill (n i : Nat) (h1 : i < n)
    (h2 : i / 8 < number_of_bytes_needed n) :
    (construct n).get i = some false := by
  have hlen : (construct n)._data.length = number_of_bytes_needed n := by
    simp [construct]
  have h2' : i / 8 < (construct n)._data.length := by rw [hlen]; exact h2
  rw [get_eq_some (construct n) i h2']
  have hbyte : (construct n)._data[i / 8] = 0 := by
    simp [construct]
  rw [hbyte]
  simp

/-- Claim C5, witness at `n = 16`, `i = 9`. -/
theorem construct_zero_fill_witness :
    (9 : Nat) < 16 ∧ 9 / 8 < number_of_bytes_needed 16 ∧
      (construct 16).get 9 = some false :=
  ⟨by decide, by decide, construct_zero_fill 16 9 (by decide) (by decide)⟩

/-- Claim C5, counterexample: `construct 9` allocates only one byte, so at
the valid logical index `8 < 9` the read fails (out-of-bounds in the C++
source) instead of returning `false`. -/
theorem construct_zero_fill_cex :
    (8 : Nat) < (construct 9)._num_bits ∧ (construct 9).get 8 = none := by
  decide

/-- The list model of `std::vector::resize` produces the requested length. -/
lemma vector_resize_length (l : List Nat) (n : Nat) :
    (vector_resize l n).length = n := by
  unfold vector_resize
  split
  · simp [List.length_take]
    omega
  · simp [List.length_append, List.length_replicate]
    omega

/-- Claim C2 (corrected): the invariant
`_data.length = number_of_bytes_needed _num_bits` holds after `construct`
and after any `resize`, and is preserved by `set` and `reset` (which change
neither `_data.length` nor `_num_bits`); the default-constructed object is
the exception (see the counterexample). -/
theorem invariant_reachable :
    (∀ n, (construct n)._data.length =
      number_of_bytes_needed (construct n)._num_bits) ∧
    (∀ (s : dynamic_bitset) (nbits : Nat), (s.resize nbits)._data.length =
      number_of_bytes_needed (s.resize nbits)._num_bits) ∧
    (∀ (s : dynamic_bitset) (pos : Nat) (v : Bool) (t : dynamic_bitset),
      s.set pos v = some t →
      t._data.length = s._data.length ∧ t._num_bits = s._num_bits) ∧
    (∀ s : dynamic_bitset,
      s.reset._data.length = s._data.length ∧ s.reset._num_bits = s._num_bits) := by
  refine ⟨?_, ?_, ?_, ?_⟩
  · intro n
    simp [construct]
  · intro s nbits
    simp [dynamic_bitset.resize, vector_resize_length]
  · intro s pos v t hset
    unfold dynamic_bitset.set at hset
    rcases h' : s._data[pos / 8]? with _ | b
    · rw [h'] at hset
      exact Option.noConfusion hset
    · rw [h'] at hset
      have ht := Option.some.inj hset
      subst ht
      simp
  · intro s
    simp [dynamic_bitset.reset]

/-- Claim C2, witness: the `set`-preservation conjunct applied to the
concrete transition `set ⟨4, [5]⟩ 0 false = some ⟨4, [4]⟩`. -/
theorem invariant_reachable_witness :
    (dynamic_bitset.mk 4 [4])._data.length =
      (dynamic_bitset.mk 4 [5])._data.length ∧
    (dynamic_bitset.mk 4 [4])._num_bits = (dynamic_bitset.mk 4 [5])._num_bits :=
  invariant_reachable.2.2.1 ⟨4, [5]⟩ 0 false ⟨4, [4]⟩ (by decide)

/-- Claim C2, counterexample: the default constructor leaves `_data` empty
while `number_of_bytes_needed 0 = 1`, so the claimed invariant fails on the
default-constructed (empty) bitset. -/
theorem invariant_default_cex :
    default_construct._data.length ≠
      number_of_bytes_needed default_construct._num_bits := by
  decide

/-- Claim C8: `resize nbits` sets `_num_bits`, resizes storage to the
recomputed word count, keeps every byte whose index is valid both before and
after, zero-fills newly added bytes, and (by the new length) discards
trailing bytes when shrinking; in particular `construct 4`, `set 2 true`,
`resize 20` keeps bit 2 set. -/
theorem resize_frame (s : dynamic_bitset) (nbits : Nat) :
    (s.resize nbits)._num_bits = nbits ∧
    (s.resize nbits)._data.length = number_of_bytes_needed nbits ∧
    (∀ i, i < s._data.length → i < number_of_bytes_needed nbits →
      (s.resize nbits)._data[i]? = s._data[i]?) ∧
    (∀ i, s._data.length ≤ i → i < number_of_bytes_needed nbits →
      (s.resize nbits)._data[i]? = some 0) ∧
    (((construct 4).set 2 true).bind (fun t => (t.resize 20).get 2) =
      some true) := by
  refine ⟨rfl, vector_resize_length s._data (number_of_bytes_needed nbits),
    ?_, ?_, by decide⟩
  · intro i hold hnew
    show (vector_resize s._data (number_of_bytes_needed nbits))[i]? = s._data[i]?
    unfold vector_resize
    split
    · exact List.getElem?_take_of_lt hnew
    · exact List.getElem?_append_left hold
  · intro i hold hnew
    show (vector_resize s._data (number_of_bytes_needed nbits))[i]? = some 0
    unfold vector_resize
    split
    · omega
    · rw [List.getElem?_append_right hold]
      exact List.getElem?_replicate_of_lt (by omega)

/-- Claim C8, witness: after `set ⟨4, [5]⟩`-style state `⟨4, [5]⟩` is
resized to 20 bits, byte 0 is preserved and byte 1 is the new zero byte. -/
theorem resize_frame_witness :
    ((dynamic_bitset.mk 4 [5]).resize 20)._data[0]? =
      (dynamic_bitset.mk 4 [5])._data[0]? ∧
    ((dynamic_bitset.mk 4 [5]).resize 20)._data[1]? = some 0 :=
  ⟨(resize_frame ⟨4, [5]⟩ 20).2.2.1 0 (by decide) (by decide),
   (resize_frame ⟨4, [5]⟩ 20).2.2.2.1 1 (by decide) (by decide)⟩

/-- Writing a bit into a byte makes that bit read back as the written value. -/
lemma testBit_writeByte_self (b : Nat) (v : Bool) (off : Nat) (h : off < 8) :
    (if v then b ||| 2 ^ off else b &&& (255 ^^^ 2 ^ off)).testBit off = v := by
  cases v
  · simpa using testBit_clear_self b off h
  · simpa using testBit_or_self b off

/-- Writing a bit into a byte leaves the other bit positions (below 8) of
that byte unchanged. -/
lemma testBit_writeByte_other (b : Nat) (v : Bool) (off off' : Nat)
    (h8 : off' < 8) (h : off' ≠ off) :
    (if v then b ||| 2 ^ off else b &&& (255 ^^^ 2 ^ off)).testBit off' =
      b.testBit off' := by
  cases v
  · simpa using testBit_clear_other b off off' h8 h
  · simpa using testBit_or_other b off off' h

/-- Reading position `j` after an in-range `set` at position `pos`: the
written value at `j = pos`, the original read anywhere else. -/
lemma get_after_set (s : dynamic_bitset) (pos j : Nat) (v : Bool)
    (h : pos / 8 < s._data.length) :
    (s.set pos v).bind (fun t => t.get j) =
      if j = pos then some v else s.get j := by
  rw [set_eq_some s pos v h, Option.some_bind, get_eq_map_testBit]
  by_cases hb : j / 8 = pos / 8
  · have hj8 : j / 8 < s._data.length := by rw [hb]; exact h
    show ((s._data.set (pos / 8) _)[j / 8]?).map _ = _
    rw [hb, List.getElem?_set_self (by simpa using h), Option.map_some']
    by_cases hj : j = pos
    · subst hj
      rw [if_pos rfl, testBit_writeByte_self _ _ _ (Nat.mod_lt j (by norm_num))]
    · have hoff : j % 8 ≠ pos % 8 := by omega
      rw [if_neg hj, get_eq_some s j hj8,
        testBit_writeByte_other _ _ _ _ (Nat.mod_lt j (by norm_num)) hoff]
      have hby : s._data[pos / 8] = s._data[j / 8] := by
        congr 1
        omega
      rw [hby]
  · have hne : pos / 8 ≠ j / 8 := fun e => hb e.symm
    have hj : j ≠ pos := by omega
    show ((s._data.set (pos / 8) _)[j / 8]?).map _ = _
    rw [List.getElem?_set_ne hne, if_neg hj, get_eq_map_testBit]

/-- Claim C3: for an in-range `pos` (`pos / 8 < _data.length`), `set pos
true` makes `get pos` read `true`, a subsequent `set pos false` makes it
read `false`, and a `set` at `pos` never changes the read of any `j ≠ pos`. -/
theorem set_get_roundtrip (s : dynamic_bitset) (pos : Nat)
    (h : pos / 8 < s._data.length) :
    ((s.set pos true).bind (fun t => t.get pos) = some true) ∧
    ((s.set pos true).bind
      (fun t => (t.set pos false).bind (fun u => u.get pos)) = some false) ∧
    (∀ (v : Bool) (j : Nat), j ≠ pos →
      (s.set pos v).bind (fun t => t.get j) = s.get j) := by
  refine ⟨?_, ?_, ?_⟩
  · rw [get_after_set s pos pos true h, if_pos rfl]
  · rw [set_eq_some s pos true h, Option.some_bind]
    rw [get_after_set _ pos pos false (by simpa using h), if_pos rfl]
  · intro v j hj
    rw [get_after_set s pos j v h, if_neg hj]

/-- Claim C3, witness on a one-byte bitset at `pos = 3`, `j = 5`. -/
theorem set_get_roundtrip_witness :
    (3 : Nat) / 8 < (dynamic_bitset.mk 8 [0])._data.length ∧
    ((dynamic_bitset.mk 8 [0]).set 3 true).bind (fun t => t.get 5) =
      (dynamic_bitset.mk 8 [0]).get 5 :=
  ⟨by decide, (set_get_roundtrip ⟨8, [0]⟩ 3 (by decide)).2.2 true 5 (by decide)⟩

lemma beq_some_true (b : Bool) : (some b == some true) = b := by
  cases b <;> rfl

/-- The `count` loop over index list `l` with a wrapped `uint32_t`
accumulator: when every read is in range, it returns the accumulator plus
the number of set bits among `l`, modulo `2^32`. -/
lemma count_foldlM (s : dynamic_bitset) (l : List Nat) (c : Nat)
    (hc : c < 4294967296) (hl : ∀ i ∈ l, i / 8 < s._data.length) :
    l.foldlM (fun c i => (s.get i).map
        (fun b => (c + if b then 1 else 0) % 4294967296)) c =
      some ((c + l.countP (fun i => s.get i == some true)) % 4294967296) := by
  induction l generalizing c with
  | nil => simp [Nat.mod_eq_of_lt hc]
  | cons a l ih =>
    have ha : a / 8 < s._data.length := hl a (List.mem_cons_self a l)
    rw [List.foldlM_cons, get_eq_some s a ha]
    simp only [Option.map_some', Option.bind_eq_bind, Option.some_bind]
    rw [ih _ (Nat.mod_lt _ (by norm_num)) (fun i hi => hl i (List.mem_cons_of_mem a hi))]
    congr 1
    rw [Nat.mod_add_mod, List.countP_cons]
    have hpa : (s.get a == some true) = s._data[a / 8].testBit (a % 8) := by
      rw [get_eq_some s a ha, beq_some_true]
    rw [hpa]
    cases s._data[a / 8].testBit (a % 8) <;> simp <;> omega

/-- Claim C4 (corrected): when every logical position fits in storage
(`_num_bits ≤ 8 * _data.length`), `count` succeeds and returns the number of
indices `i < _num_bits` with `get i = true`, reduced modulo `2^32` (the
accumulator is a `uint32_t`); without reduction whenever
`_num_bits < 2^32`.  The loop bound `_num_bits` excludes all higher
positions from the count by construction. -/
theorem count_spec (s : dynamic_bitset) (h : s._num_bits ≤ 8 * s._data.length) :
    s.count = some ((List.range s._num_bits).countP
      (fun i => s.get i == some true) % 4294967296) ∧
    (s._num_bits < 4294967296 →
      s.count = some ((List.range s._num_bits).countP
        (fun i => s.get i == some true))) := by
  have hl : ∀ i ∈ List.range s._num_bits, i / 8 < s._data.length := by
    intro i hi
    have := List.mem_range.mp hi
    omega
  have key := count_foldlM s (List.range s._num_bits) 0 (by norm_num) hl
  constructor
  · unfold dynamic_bitset.count
    rw [key, Nat.zero_add]
  · intro hlt
    unfold dynamic_bitset.count
    rw [key, Nat.zero_add, Nat.mod_eq_of_lt]
    calc (List.range s._num_bits).countP (fun i => s.get i == some true)
        ≤ (List.range s._num_bits).length :=
          List.countP_le_length (fun i => s.get i == some true)
      _ = s._num_bits := List.length_range s._num_bits
      _ < 4294967296 := hlt

/-- Claim C4, witness: the spec's own example — 10 bits with bits 0 and 9
set (bytes `[1, 2]`) — counts to 2. -/
theorem count_spec_witness : (dynamic_bitset.mk 10 [1, 2]).count = some 2 :=
  ((count_spec ⟨10, [1, 2]⟩ (by decide)).2 (by decide)).trans (by decide)

/-- Claim C4, counterexample: on `construct 9` (bit count 9, but only one
byte allocated) the count loop reads out of bounds at `i = 8`, so `count`
fails instead of returning the number of set bits (which would be 0). -/
theorem count_spec_cex : (construct 9).count = none := by
  decide

/-- `mapM` over `Option` succeeds as a plain `map` when every element
succeeds. -/
lemma mapM_option_of_all_some {α β : Type} (g : α → Option β) (f : α → β)
    (l : List α) (h : ∀ a ∈ l, g a = some (f a)) :
    l.mapM g = some (l.map f) := by
  induction l with
  | nil => rfl
  | cons a l ih =>
    rw [List.mapM_cons, h a (List.mem_cons_self a l),
      ih (fun x hx => h x (List.mem_cons_of_mem a hx))]
    rfl

/-- Claim C6 (corrected): when every logical position fits in storage
(`_num_bits ≤ 8 * _data.length`), `to_string` succeeds with a string of
exactly `_num_bits` characters whose character at output position `k` is
`'1'` exactly when `get (_num_bits - 1 - k)` is `true` (highest logical
index first); in particular the 4-bit state with bits 0 and 2 set prints
as `"0101"`. -/
theorem to_string_spec (s : dynamic_bitset)
    (h : s._num_bits ≤ 8 * s._data.length) :
    (∃ l : List Char, s.to_string = some (String.mk l) ∧
      l.length = s._num_bits ∧
      (∀ k, k < s._num_bits →
        l[k]? = some (if s.get (s._num_bits - 1 - k) == some true
                      then '1' else '0'))) ∧
    (((construct 4).set 0 true).bind (fun t => t.set 2 true)).bind
      (fun t => t.to_string) = some "0101" := by
  refine ⟨?_, by decide⟩
  refine ⟨(List.range s._num_bits).map
    (fun i => if s.get (s._num_bits - 1 - i) == some true then '1' else '0'),
    ?_, ?_, ?_⟩
  · unfold dynamic_bitset.to_string
    rw [mapM_option_of_all_some _
      (fun i => if s.get (s._num_bits - 1 - i) == some true then '1' else '0') _ ?_]
    · rfl
    · intro i hi
      have hi' : i < s._num_bits := List.mem_range.mp hi
      have hdiv : (s._num_bits - i - 1) / 8 < s._data.length := by omega
      show (s.get (s._num_bits - i - 1)).map (fun b => if b then '1' else '0') =
        some (if s.get (s._num_bits - 1 - i) == some true then '1' else '0')
      rw [show s._num_bits - 1 - i = s._num_bits - i - 1 by omega,
        get_eq_some s _ hdiv, beq_some_true, Option.map_some']
  · simp
  · intro k hk
    rw [List.getElem?_map, List.getElem?_range hk, Option.map_some']

/-- Claim C6, witness: the example conjunct extracted at the 4-bit state
with bits 0 and 2 set. -/
theorem to_string_spec_witness :
    (((construct 4).set 0 true).bind (fun t => t.set 2 true)).bind
      (fun t => t.to_string) = some "0101" :=
  (to_string_spec ⟨4, [5]⟩ (by decide)).2

/-- Claim C6, counterexample: on `construct 9` the `to_string` loop reads
position 8 out of bounds, so it fails instead of returning a string of 9
characters. -/
theorem to_string_spec_cex : (construct 9).to_string = none := by
  decide

/-- Claim C7 (corrected): `reset` zeroes every byte of storage and changes
neither `_num_bits` nor the storage length; further, when every logical
position fits in storage, afterwards `count` returns 0 and `get i` returns
`false` for every `i < _num_bits`. -/
theorem reset_clears (s : dynamic_bitset) :
    (∀ b ∈ s.reset._data, b = 0) ∧
    s.reset._num_bits = s._num_bits ∧
    s.reset._data.length = s._data.length ∧
    (s._num_bits ≤ 8 * s._data.length →
      (s.reset.count = some 0 ∧
       ∀ i, i < s._num_bits → s.reset.get i = some false)) := by
  have hlen : s.reset._data.length = s._data.length := by
    simp [dynamic_bitset.reset]
  refine ⟨?_, rfl, hlen, ?_⟩
  · intro b hb
    simp only [dynamic_bitset.reset, List.mem_map] at hb
    obtain ⟨_, _, hb0⟩ := hb
    exact hb0.symm
  · intro h
    have hget : ∀ i, i < s._num_bits → s.reset.get i = some false := by
      intro i hi
      have hle : i / 8 < s.reset._data.length := by rw [hlen]; omega
      rw [get_eq_some s.reset i hle]
      have hzero : s.reset._data[i / 8] = 0 := by
        simp [dynamic_bitset.reset]
      rw [hzero, Nat.zero_testBit]
    refine ⟨?_, hget⟩
    unfold dynamic_bitset.count
    rw [count_foldlM s.reset (List.range s.reset._num_bits) 0 (by norm_num)
      (fun i hi => by
        have : i < s._num_bits := List.mem_range.mp hi
        rw [hlen]
        omega)]
    have hcp : (List.range s.reset._num_bits).countP
        (fun i => s.reset.get i == some true) = 0 := by
      rw [List.countP_eq_zero]
      intro i hi
      rw [hget i (List.mem_range.mp hi)]
      decide
    rw [hcp]

/-- Claim C7, witness: resetting the 4-bit state `⟨4, [5]⟩` gives count 0
and a clear bit 2. -/
theorem reset_clears_witness :
    (dynamic_bitset.mk 4 [5]).reset.count = some 0 ∧
    (dynamic_bitset.mk 4 [5]).reset.get 2 = some false :=
  ⟨((reset_clears ⟨4, [5]⟩).2.2.2 (by decide)).1,
   ((reset_clears ⟨4, [5]⟩).2.2.2 (by decide)).2 2 (by decide)⟩

/-- Claim C7, counterexample: on `construct 9` (one byte allocated for 9
logical bits) even after `reset` the read of the valid logical index 8
fails and `count` fails, instead of returning `false` and 0. -/
theorem reset_clears_cex :
    (8 : Nat) < (construct 9).reset._num_bits ∧
    (construct 9).reset.get 8 = none ∧
    (construct 9).reset.count = none := by
  decide
